import Mathlib

/-!
Shallow embedding of the document retrieval engine of the memory-bank-MCP
repository: the relevance scorer, section/paragraph splitter, search
orchestration and snippet extractor of `src/src/mcp/memoryBankMcp.ts`, and the
schema extraction / consistency analysis of the file-manager module
(`src/unnamed/part_001`).

Modelling conventions:
* text is a `List Char` (`String.data`); JavaScript floating point arithmetic
  on scores is modelled by exact rationals (`ℚ`);
* `new Date()` / timestamps are modelled as integer milliseconds since the
  Unix epoch, passed in explicitly as `nowMs`;
* the regular expressions of the source are implemented as explicit character
  scanners with the same leftmost-match, greedy/lazy semantics, documented at
  each definition.
-/

namespace MemoryBank

/-- Whitespace characters as matched by the JavaScript regex class `\s` and
stripped by `String.prototype.trim` (restricted to the ASCII whitespace that
occurs in the repository's Markdown text). -/
def jsWs (c : Char) : Bool :=
  c == ' ' || c == '\t' || c == '\n' || c == '\r'

/-- Lower-casing of a character sequence, modelling
`String.prototype.toLowerCase` on ASCII letters. -/
def lowerL (l : List Char) : List Char := l.map Char.toLower

/-- JavaScript `haystack.includes(needle)`: `needle` occurs as a contiguous
substring of `haystack`. -/
def containsSub (haystack needle : List Char) : Bool :=
  match haystack with
  | [] => needle.isEmpty
  | _ :: t => needle.isPrefixOf haystack || containsSub t needle

/-- Maximal runs of non-whitespace characters.  Together with the length
filter in `queryTermsOf` this is exactly
`query.toLowerCase().split(/\s+/).filter(term => term.length > 2)` from
`performAdvancedSearch`: the empty fields JavaScript's `split` produces at the
ends of the string are removed by that filter in any case. -/
def splitNonWsAux : List Char → List Char → List (List Char)
  | [], acc => if acc.isEmpty then [] else [acc.reverse]
  | c :: rest, acc =>
    if jsWs c then
      if acc.isEmpty then splitNonWsAux rest [] else acc.reverse :: splitNonWsAux rest []
    else splitNonWsAux rest (c :: acc)

def splitNonWs (l : List Char) : List (List Char) := splitNonWsAux l []

/-- `const queryTerms = query.toLowerCase().split(/\s+/).filter(term => term.length > 2)`
(src/src/mcp/memoryBankMcp.ts, line 436). -/
def queryTermsOf (query : String) : List (List Char) :=
  (splitNonWs (lowerL query.data)).filter (fun t => t.length > 2)

/-- `calculateRelevanceScore(query, queryTerms, text)`
(src/src/mcp/memoryBankMcp.ts, lines 476-504).  The loop over `queryTerms`
increments `matchCount` once per list entry, so duplicated terms are counted
with multiplicity, which `List.countP` reproduces. -/
def calculateRelevanceScore (query : String) (queryTerms : List (List Char))
    (text : List Char) : ℚ :=
  let lowerText := lowerL text
  if containsSub lowerText (lowerL query.data) then 1
  else
    let matchCount := queryTerms.countP (fun term => containsSub lowerText term)
    let termMatchRatio : ℚ :=
      if queryTerms.length > 0 then (matchCount : ℚ) / (queryTerms.length : ℚ) else 0
    let proximityFactor : ℚ := if matchCount ≥ 2 then 1/5 else 0
    termMatchRatio * (4/5) + proximityFactor

/-- The scoring formula as the specification words it: `matchCount` is "the
number of distinct `terms` occurring as substrings" of the lower-cased text.
This definition follows the spec's words (for comparison with
`calculateRelevanceScore`, which counts with multiplicity). -/
def specCalculateRelevanceScore (query : String) (queryTerms : List (List Char))
    (text : List Char) : ℚ :=
  let lowerText := lowerL text
  if containsSub lowerText (lowerL query.data) then 1
  else
    let matchCount := queryTerms.dedup.countP (fun term => containsSub lowerText term)
    let termMatchRatio : ℚ :=
      if queryTerms.length > 0 then (matchCount : ℚ) / (queryTerms.length : ℚ) else 0
    let proximityFactor : ℚ := if matchCount ≥ 2 then 1/5 else 0
    termMatchRatio * (4/5) + proximityFactor

/-! ## Section and paragraph splitting (`performAdvancedSearch`, lines 439-449) -/

/-- Length of the leading run of `#` characters. -/
def hashRun (l : List Char) : Nat := (l.takeWhile (fun c => c == '#')).length

/-- If the section-splitting delimiter regex `\n#{2,3}\s+` (from
`content.split(/\n#{2,3}\s+/)`) matches at the head of `l`, the number of
characters the match consumes.  `#{2,3}` is greedy with backtracking, so a run
of four or more `#` never matches (after two or three hashes the next
character is still `#`, not `\s`); `\s+` greedily consumes the whole
whitespace run. -/
def sectionDelimHead (l : List Char) : Option Nat :=
  match l with
  | '\n' :: rest =>
    let k := hashRun rest
    if k = 2 ∨ k = 3 then
      let w := ((rest.drop k).takeWhile jsWs).length
      if w ≥ 1 then some (1 + k + w) else none
    else none
  | _ => none

/-- Leftmost match of the section delimiter: the text before the match and the
text after the consumed delimiter, or `none` when the delimiter does not occur
(JavaScript `split` scans left to right). -/
def findSectionDelim : List Char → Option (List Char × List Char)
  | [] => none
  | c :: rest =>
    match sectionDelimHead (c :: rest) with
    | some n => some ([], (c :: rest).drop n)
    | none =>
      match findSectionDelim rest with
      | some (p, s) => some (c :: p, s)
      | none => none

/-- `content.split(/\n#{2,3}\s+/)`: repeatedly split at the leftmost
delimiter occurrence.  The recursion consumes at least one character per
round, so `fuel = l.length` always suffices; the explicit fuel keeps the
definition structurally recursive (and hence kernel-computable). -/
def splitSectionsGo (fuel : Nat) (l : List Char) : List (List Char) :=
  match fuel with
  | 0 => [l]
  | fuel + 1 =>
    match findSectionDelim l with
    | none => [l]
    | some (p, s) => p :: splitSectionsGo fuel s

def splitSections (l : List Char) : List (List Char) := splitSectionsGo l.length l

/-- `.filter(Boolean)` drops the empty chunks (line 441). -/
def sectionsOf (content : List Char) : List (List Char) :=
  (splitSections content).filter (fun c => !c.isEmpty)

/-- `String.prototype.trim` on a character list. -/
def trimList (l : List Char) : List Char :=
  ((l.dropWhile jsWs).reverse.dropWhile jsWs).reverse

/-- Title extraction (lines 445-446): `section.match(/^([^\n]+)/)` takes the
first line when it is non-empty, and the title is its trim; a chunk whose
first character is a newline has no match and the title is the empty
string — which is also what trimming the empty `takeWhile` result gives. -/
def sectionTitleOf (sec : List Char) : List Char :=
  trimList (sec.takeWhile (fun c => c != '\n'))

/-- If the paragraph delimiter regex `\n\n+` (from `section.split(/\n\n+/)`,
line 449) matches at the head of `l`, the number of characters the greedy
match consumes. -/
def paraDelimHead (l : List Char) : Option Nat :=
  match l with
  | '\n' :: '\n' :: rest => some (2 + (rest.takeWhile (fun c => c == '\n')).length)
  | _ => none

/-- Leftmost match of the paragraph delimiter. -/
def findParaDelim : List Char → Option (List Char × List Char)
  | [] => none
  | c :: rest =>
    match paraDelimHead (c :: rest) with
    | some n => some ([], (c :: rest).drop n)
    | none =>
      match findParaDelim rest with
      | some (p, s) => some (c :: p, s)
      | none => none

/-- `section.split(/\n\n+/)` (line 449); the empty fields are kept, exactly
as in the source (no `filter` is applied to paragraphs).  Fuel as in
`splitSectionsGo`. -/
def splitParasGo (fuel : Nat) (l : List Char) : List (List Char) :=
  match fuel with
  | 0 => [l]
  | fuel + 1 =>
    match findParaDelim l with
    | none => [l]
    | some (p, s) => p :: splitParasGo fuel s

def splitParas (l : List Char) : List (List Char) := splitParasGo l.length l

/-- Modelled from the spec's words (C9): "within each chunk the first line is
the section title and the remainder is split into paragraphs" — the chunk
minus its first line (and the newline ending that line), split on blank-line
runs.  For comparison with the source's `splitParas`, which splits the whole
chunk. -/
def specChunkParagraphs (sec : List Char) : List (List Char) :=
  splitParas ((sec.dropWhile (fun c => c != '\n')).drop 1)

/-- The shape of one consumed section-split delimiter: a newline, two or
three hashes, and a non-empty whitespace run (the greedy `\n#{2,3}\s+`
match). -/
def isSectionDelim (d : List Char) : Prop :=
  ∃ k w, (k = 2 ∨ k = 3) ∧ w ≠ [] ∧ (∀ c ∈ w, jsWs c = true) ∧
    d = '\n' :: (List.replicate k '#' ++ w)

/-- The shape of one consumed paragraph-split delimiter: a run of two or more
newlines (the greedy `\n\n+` match). -/
def isParaDelim (d : List Char) : Prop :=
  ∃ m, 2 ≤ m ∧ d = List.replicate m '\n'

/-- Interleaves split chunks with the delimiters consumed between them;
rebuilding the original text this way states that the splitter loses nothing
and splits only at delimiters. -/
def interleave : List (List Char) → List (List Char) → List Char
  | [], _ => []
  | [c], _ => c
  | c :: _ :: _, [] => c
  | c :: c2 :: cs, d :: ds => c ++ d ++ interleave (c2 :: cs) ds

/-! ## Snippet extraction (`extractRelevantSnippet`, lines 506-559) -/

/-- `lowerText.substring(i, i + 100)` term count: how many entries of
`queryTerms` (with multiplicity) occur in the 100-character lookahead window
at offset `i` (lines 515-521). -/
def termCountAt (lowerText : List Char) (queryTerms : List (List Char)) (i : Nat) : Nat :=
  queryTerms.countP (fun term => containsSub ((lowerText.drop i).take 100) term)

/-- The best-offset scan (lines 510-527): for every character offset, count
terms in the lookahead window; the first offset with the strictly highest
count wins (`termCount > bestTermCount`); both accumulators start at 0. -/
def bestMatch (lowerText : List Char) (queryTerms : List (List Char)) : Nat × Nat :=
  (List.range lowerText.length).foldl
    (fun best i =>
      let tc := termCountAt lowerText queryTerms i
      if tc > best.2 then (i, tc) else best)
    (0, 0)

/-- The start-position widening loop (lines 534-536):
`while (startPos > 0 && text[startPos] !== ' ' && text[startPos] !== '\n') startPos--`.
An out-of-range index reads `undefined` in JavaScript, which is not a space,
so the loop keeps decrementing; `none` therefore counts as "not a boundary". -/
def isSpaceNl : Option Char → Bool
  | some c => c == ' ' || c == '\n'
  | none => false

def widenStart (text : List Char) : Nat → Nat
  | 0 => 0
  | s + 1 => if isSpaceNl text[s + 1]? then s + 1 else widenStart text s

/-- The end-position widening loop (lines 538-540):
`while (endPos < text.length && text[endPos] !== ' ' && text[endPos] !== '\n') endPos++`. -/
def widenEndGo (text : List Char) : Nat → Nat → Nat
  | 0, e => e
  | fuel + 1, e =>
    if e < text.length then
      (if isSpaceNl text[e]? then e else widenEndGo text fuel (e + 1))
    else e

def widenEnd (text : List Char) (e : Nat) : Nat :=
  widenEndGo text (text.length - e) e

/-- `startPos = Math.max(0, bestPosition - 30)` (line 530; `Nat` subtraction
truncates at 0 exactly like the `max`), then widened to a word boundary. -/
def snippetStartPos (text : List Char) (queryTerms : List (List Char)) : Nat :=
  widenStart text ((bestMatch (lowerL text) queryTerms).1 - 30)

/-- `endPos = Math.min(text.length, bestPosition + MAX_SNIPPET_LENGTH - 30)`
with `MAX_SNIPPET_LENGTH = 150` (line 531), then widened to a word boundary. -/
def snippetEndPos (text : List Char) (queryTerms : List (List Char)) : Nat :=
  widenEnd text (min text.length ((bestMatch (lowerL text) queryTerms).1 + 120))

/-- `text.substring(startPos, endPos).trim()` (line 542). -/
def snippetCore (text : List Char) (queryTerms : List (List Char)) : List Char :=
  trimList ((text.drop (snippetStartPos text queryTerms)).take
    (snippetEndPos text queryTerms - snippetStartPos text queryTerms))

/-- `extractRelevantSnippet(text, queryTerms, sectionTitle)` (lines 506-559):
the trimmed window, ellipses when the window does not touch the respective end
of the paragraph, and the bold section-title label when the title is
non-empty. -/
def extractRelevantSnippet (text : List Char) (queryTerms : List (List Char))
    (sectionTitle : List Char) : String :=
  let startPos := snippetStartPos text queryTerms
  let endPos := snippetEndPos text queryTerms
  let core := snippetCore text queryTerms
  let withL := (if startPos > 0 then "...".data else []) ++ core
  let snippet := withL ++ (if endPos < text.length then "...".data else [])
  if sectionTitle.isEmpty then String.mk snippet
  else String.mk ("**".data ++ sectionTitle ++ "**: ".data ++ snippet)

/-! ## Search orchestration (`performAdvancedSearch`, lines 434-474) -/

/-- `SearchResult` (lines 428-432). -/
structure SearchResult where
  documentType : String
  relevanceScore : ℚ
  snippet : String
deriving DecidableEq, Repr

/-- The result-collection loops of `performAdvancedSearch` (lines 439-468):
for every document (in mapping iteration order, modelled as a list of
name/content pairs), every section chunk and every paragraph, a `SearchResult`
is pushed exactly when the relevance score is strictly above 0.3 (the
threshold literal is written `mkRat 3 10`, the normalized form of `3/10`). -/
def collectResults (query : String) (documents : List (String × String)) :
    List SearchResult :=
  let queryTerms := queryTermsOf query
  documents.flatMap (fun doc =>
    (sectionsOf doc.2.data).flatMap (fun sec =>
      let title := sectionTitleOf sec
      (splitParas sec).filterMap (fun paragraph =>
        let relevanceScore := calculateRelevanceScore query queryTerms paragraph
        if relevanceScore > mkRat 3 10 then
          some ⟨doc.1, relevanceScore,
            extractRelevantSnippet paragraph queryTerms title⟩
        else none)))

/-- The comparator `(a, b) => b.relevanceScore - a.relevanceScore` (line 472)
orders by descending score; `Array.prototype.sort` is a stable sort, modelled
by `List.mergeSort`. -/
def scoreLe (a b : SearchResult) : Bool :=
  decide (b.relevanceScore ≤ a.relevanceScore)

/-- `performAdvancedSearch(query, documents)` (lines 434-474): collect, sort
by descending relevance, return the top 5. -/
def performAdvancedSearch (query : String) (documents : List (String × String)) :
    List SearchResult :=
  ((collectResults query documents).mergeSort scoreLe).take 5

/-- All (documentName, sectionTitle, paragraph) triples the search loops
visit, in encounter order; used to state which paragraphs produce hits. -/
def searchCandidates (query : String) (documents : List (String × String)) :
    List (String × List Char × List Char) :=
  documents.flatMap (fun doc =>
    (sectionsOf doc.2.data).flatMap (fun sec =>
      (splitParas sec).map (fun paragraph => (doc.1, sectionTitleOf sec, paragraph))))

/-! ## Schema extraction (`getDocumentWorkflow`, src/unnamed/part_001,
lines 221-292).  The function's own I/O (reading the `.byterules` file) is
collaborator plumbing; the rules text is passed in directly. -/

/-- The backtick character (U+0060). -/
def backtick : Char := Char.ofNat 96

/-- Case-insensitive prefix test (for literal regex parts under the `i` flag). -/
def ciStartsWith : List Char → List Char → Bool
  | [], _ => true
  | _ :: _, [] => false
  | a :: as, b :: bs => (a.toLower == b.toLower) && ciStartsWith as bs

/-- `documentType.replace(/Context/g, ' Context')` (line 232): every
occurrence of the literal `Context` gets a space spliced in front, scanning
left to right. -/
def replaceContextGo (fuel : Nat) (l : List Char) : List Char :=
  match fuel with
  | 0 => l
  | fuel + 1 =>
    match l with
    | [] => []
    | c :: rest =>
      if "Context".data.isPrefixOf (c :: rest) then
        ' ' :: ("Context".data ++ replaceContextGo fuel ((c :: rest).drop 7))
      else c :: replaceContextGo fuel rest

def replaceContextSp (l : List Char) : List Char := replaceContextGo l.length l

/-- `\w` of JavaScript plus the dot: the `[\w\.]+` class of the section
heading regex. -/
def isWordDot (c : Char) : Bool := c.isAlphanum || c == '_' || c == '.'

/-- Head match of the section-heading regex
`###\s*\d+\.\s*NAME\s*\([\w\.]+\)` (case-insensitive, line 232) at the start
of `l`; returns the remainder after the match.  Each quantified class here is
disjoint from the literal that follows it, so greedy maximal-run matching is
exact (no backtracking can succeed where it fails); `NAME` is the
`Context`-spaced document type, which never begins with whitespace. -/
def typeHeadAt (name : List Char) (l : List Char) : Option (List Char) :=
  match l with
  | '#' :: '#' :: '#' :: r0 =>
    let r1 := r0.dropWhile jsWs
    let ds := r1.takeWhile Char.isDigit
    if ds.isEmpty then none else
    match r1.drop ds.length with
    | '.' :: r2 =>
      let r3 := r2.dropWhile jsWs
      if ciStartsWith name r3 then
        match (r3.drop name.length).dropWhile jsWs with
        | '(' :: r5 =>
          let wd := r5.takeWhile isWordDot
          if wd.isEmpty then none else
          match r5.drop wd.length with
          | ')' :: r6 => some r6
          | _ => none
        | _ => none
      else none
    | _ => none
  | _ => none

/-- Length of the prefix before the first occurrence of `##` (or the whole
length).  This is the lookahead `(?=###\s*\d+\.\s*|##\s*|$)` of the section
regex: `\s*` matches the empty string and every `###` position also starts
with `##`, so the lookahead succeeds exactly at `##` or at the end. -/
def before2Hash : List Char → Nat
  | [] => 0
  | '#' :: '#' :: _ => 0
  | _ :: rest => 1 + before2Hash rest

/-- Leftmost match of the whole section regex: the matched text `m[0]` runs
from the head match to the first `##` after it (lazily extended `[\s\S]*?` up
to the lookahead), or to the end of the rules text. -/
def findTypeSection (name : List Char) : List Char → Option (List Char)
  | [] => none
  | c :: rest =>
    match typeHeadAt name (c :: rest) with
    | some r =>
      some ((c :: rest).take ((c :: rest).length - r.length + before2Hash r))
    | none => findTypeSection name rest

/-- Suffix of `text` after the first occurrence of `pat`, or `none`. -/
def dropAfterSub (pat : List Char) : List Char → Option (List Char)
  | [] => if pat.isEmpty then some [] else none
  | c :: rest =>
    if pat.isPrefixOf (c :: rest) then some ((c :: rest).drop pat.length)
    else dropAfterSub pat rest

/-- Capture of `LABEL\s*(.*?)(?=\n)` (the `**Purpose**:` / `**When to
Update**:` regexes, lines 248 and 252) against the first occurrence of the
label.  The greedy `\s*` run is tried longest-first, the lazy dot-capture
cannot cross a newline, and the lookahead requires a following `\n`:
* if any `\n` follows the whitespace run, the capture is the text up to it;
* otherwise, if the whitespace run itself contains a `\n`, backtracking
  shortens `\s*` until the capture is empty and the lookahead sees that `\n`;
* otherwise there is no `\n` anywhere after the label (so no later occurrence
  of the label can match either) and the whole regex fails. -/
def fieldLineCapture (label text : List Char) : Option (List Char) :=
  match dropAfterSub label text with
  | none => none
  | some tail =>
    let run := tail.takeWhile jsWs
    let rest := tail.dropWhile jsWs
    if rest.any (fun c => c == '\n') then some (rest.takeWhile (fun c => c != '\n'))
    else if run.any (fun c => c == '\n') then some []
    else none

/-- Text up to (not including) the first occurrence of `**`, or all of it:
the lazy `[\s\S]*?(?=\*\*|$)` tail of the `**Structure**:` / `**Commands**:`
block regexes (lines 256 and 267). -/
def takeUntilStars : List Char → List Char
  | [] => []
  | '*' :: '*' :: _ => []
  | c :: rest => c :: takeUntilStars rest

/-- Block capture `LABEL[\s\S]*?(?=\*\*|$)` at the first occurrence of the
label; the returned span is `m[0]` minus the leading label, after the
`.replace(/LABEL\s*/, '')` that also strips the whitespace run following the
label. -/
def fieldBlockCapture (label text : List Char) : Option (List Char) :=
  match dropAfterSub label text with
  | none => none
  | some tail => some ((takeUntilStars tail).dropWhile jsWs)

/-- String.split('\n') keeping empty fields. -/
def splitLines : List Char → List (List Char)
  | [] => [[]]
  | c :: rest =>
    let r := splitLines rest
    if c == '\n' then [] :: r
    else
      match r with
      | h :: t => (c :: h) :: t
      | [] => [[c]]

/-- `line.replace(/^\s*-\s*/, '')` (line 262): strip a leading bullet
marker when present; a line with no `-` after its leading whitespace is left
unchanged. -/
def stripBullet (line : List Char) : List Char :=
  match line.dropWhile jsWs with
  | '-' :: rest => rest.dropWhile jsWs
  | _ => line

/-- `line.replace(/^\s*-\s*`(.*?)`.*/, '$1')` (line 273): when the line is a
bullet whose text starts with a backtick-quoted token, the whole line is
replaced by the token (the lazy capture stops at the first closing backtick
and the trailing `.*` swallows the rest of the line); otherwise the regex
does not match and the line is unchanged. -/
def extractCmdLine (line : List Char) : List Char :=
  match line.dropWhile jsWs with
  | '-' :: rest =>
    match rest.dropWhile jsWs with
    | c :: r3 =>
      if c == backtick && r3.any (fun x => x == backtick) then
        r3.takeWhile (fun x => x != backtick)
      else line
    | [] => line
  | _ => line

/-- The `structure` field extraction (lines 256-264). -/
def parseStructure (sectionContent : List Char) : List String :=
  match fieldBlockCapture "**Structure**:".data sectionContent with
  | none => ["No specific structure defined"]
  | some span =>
    ((splitLines (trimList span)).map
      (fun line => String.mk (trimList (stripBullet line)))).filter
      (fun s => s.length > 0)

/-- The `commands` field extraction (lines 267-275);
`documentType.toLowerCase()` is modelled by `lowerL` on the character data. -/
def parseCommands (sectionContent : List Char) (documentType : String) : List String :=
  match fieldBlockCapture "**Commands**:".data sectionContent with
  | none => ["update_document " ++ String.mk (lowerL documentType.data)]
  | some span =>
    ((splitLines (trimList span)).map
      (fun line => String.mk (trimList (extractCmdLine line)))).filter
      (fun s => s.length > 0)

/-- The workflow record returned by `getDocumentWorkflow` (the `structure`
field is named `structure_` because `structure` is a Lean keyword). -/
structure DocumentWorkflow where
  purpose : String
  updateTiming : String
  structure_ : List String
  commands : List String
deriving DecidableEq, Repr

/-- `getDocumentWorkflow(directory, documentType)` (lines 221-292), with the
`.byterules` content passed directly. -/
def getDocumentWorkflow (byteRulesContent : String) (documentType : String) :
    DocumentWorkflow :=
  let name := replaceContextSp documentType.data
  match findTypeSection name byteRulesContent.data with
  | none =>
    { purpose := "Information about " ++ documentType ++ " document"
      updateTiming := "As needed"
      structure_ := ["No specific structure defined"]
      commands := ["update_document " ++ String.mk (lowerL documentType.data)] }
  | some sectionContent =>
    { purpose :=
        match fieldLineCapture "**Purpose**:".data sectionContent with
        | some cap => String.mk (trimList cap)
        | none => "Information about " ++ documentType
      updateTiming :=
        match fieldLineCapture "**When to Update**:".data sectionContent with
        | some cap => String.mk (trimList cap)
        | none => "As needed"
      structure_ := parseStructure sectionContent
      commands := parseCommands sectionContent documentType }

/-! ## Consistency analysis (`analyzeDocumentConsistency`, src/unnamed/part_001,
lines 332-399).  Reading the documents from disk is collaborator plumbing; the
corpus is passed as a list of name/content pairs in iteration order, and
`new Date()` is passed as `nowMs` (milliseconds since the Unix epoch). -/

/-- The six standard document types (line 345). -/
def knownDocTypes : List String :=
  ["projectbrief", "productContext", "systemPatterns", "techContext",
   "activeContext", "progress"]

/-- Match of the required-section test regex `##\s*NAME` (case-insensitive,
line 355) directly at the current position: `\s*` tries every split of the
whitespace run (the section names extracted by `parseStructure` are trimmed,
but backtracking is modelled faithfully). Regex metacharacters inside `NAME`
are not modelled: the extracted section names of this repository's rules
documents are plain words. -/
def matchAfterOptWs (name : List Char) : List Char → Bool
  | [] => ciStartsWith name []
  | c :: rest => ciStartsWith name (c :: rest) || (jsWs c && matchAfterOptWs name rest)

def headingHereCI (name : List Char) (l : List Char) : Bool :=
  match l with
  | '#' :: '#' :: r2 => matchAfterOptWs name r2
  | _ => false

/-- `new RegExp('##\\s*' + section, 'i').test(content)` (lines 355-356). -/
def hasSectionHeading (name : List Char) : List Char → Bool
  | [] => false
  | c :: rest => headingHereCI name (c :: rest) || hasSectionHeading name rest

/-- Shape test for the captured group of
`Last Updated:\s*(\d{4}-\d{2}-\d{2})` (line 362). -/
def matchesDateShape (d : List Char) : Bool :=
  match d with
  | [y1, y2, y3, y4, h1, m1, m2, h2, d1, d2] =>
    y1.isDigit && y2.isDigit && y3.isDigit && y4.isDigit && h1 == '-' &&
    m1.isDigit && m2.isDigit && h2 == '-' && d1.isDigit && d2.isDigit
  | _ => false

/-- Attempt of the `Last Updated:` regex at the current position: the literal
label, a greedy whitespace run (`\s` and `\d` are disjoint, so no
backtracking applies), then exactly the `\d{4}-\d{2}-\d{2}` capture. -/
def lastUpdatedAt (l : List Char) : Option (List Char) :=
  if "Last Updated:".data.isPrefixOf l then
    let t := (l.drop 13).dropWhile jsWs
    let d := t.take 10
    if matchesDateShape d then some d else none
  else none

/-- Leftmost match of `content.match(/Last Updated:\s*(\d{4}-\d{2}-\d{2})/)`:
a failed attempt at one position (for example a label followed by prose
instead of digits) moves the scan to the next position. -/
def findLastUpdated : List Char → Option (List Char)
  | [] => none
  | c :: rest =>
    match lastUpdatedAt (c :: rest) with
    | some d => some d
    | none => findLastUpdated rest

def digitsToNat (l : List Char) : Nat := l.foldl (fun n c => 10 * n + (c.toNat - 48)) 0

def isLeapYear (y : Nat) : Bool := (y % 4 == 0 && y % 100 != 0) || y % 400 == 0

def daysInMonth (y m : Nat) : Nat :=
  if m == 2 then (if isLeapYear y then 29 else 28)
  else if m == 4 || m == 6 || m == 9 || m == 11 then 30 else 31

/-- Days from 1970-01-01 of a proleptic-Gregorian civil date (Hinnant's
`days_from_civil`, with the same truncating integer division as the
original). -/
def daysFromCivil (y m d : Nat) : Int :=
  let yi : Int := if m ≤ 2 then (y : Int) - 1 else (y : Int)
  let era : Int := (if 0 ≤ yi then yi else yi - 399).tdiv 400
  let yoe : Int := yi - era * 400
  let mp : Int := ((m : Int) + 9) % 12
  let doy : Int := (153 * mp + 2).tdiv 5 + (d : Int) - 1
  let doe : Int := yoe * 365 + yoe.tdiv 4 - yoe.tdiv 100 + doy
  era * 146097 + doe - 719468

/-- `new Date("YYYY-MM-DD")` on a string already shaped by the capture regex:
the ECMAScript date-time string format yields midnight UTC for a valid
calendar date and an Invalid Date (`NaN` time value) for an out-of-range
month or day.  `some days` is the valid date's timestamp in days; `none` is
Invalid Date. -/
def parseJsDate (d : List Char) : Option Int :=
  if matchesDateShape d then
    let y := digitsToNat (d.take 4)
    let m := digitsToNat ((d.drop 5).take 2)
    let dd := digitsToNat ((d.drop 8).take 2)
    if 1 ≤ m ∧ m ≤ 12 ∧ 1 ≤ dd ∧ dd ≤ daysInMonth y m then some (daysFromCivil y m dd)
    else none
  else none

/-- The staleness check (lines 361-372).  `thirtyDaysAgo` is `new Date()`
minus 30 days (`setDate(getDate() - 30)`), i.e. `nowMs - 30 * 86400000`
milliseconds; a parsed date compares by its millisecond timestamp
(`days * 86400000`).  When the captured date is an Invalid Date its time
value is `NaN`, every comparison with `NaN` is false, and
`needsUpdate = lastUpdated < thirtyDaysAgo` therefore stays `false`. -/
def needsUpdateFlag (content : String) (nowMs : Int) : Bool :=
  match findLastUpdated content.data with
  | none => true
  | some ds =>
    match parseJsDate ds with
    | none => false
    | some days => decide (days * 86400000 < nowMs - 30 * 86400000)

/-- One entry of the analysis result (lines 332-336); `status` is the string
literal `"good"` or `"needs-update"`. -/
structure ConsistencyEntry where
  documentType : String
  status : String
  recommendation : String
deriving DecidableEq, Repr

/-- The per-document body of the analysis loop (lines 343-391). -/
def analyzeDoc (byteRules : String) (docName content : String) (nowMs : Int) :
    ConsistencyEntry :=
  let workflow := getDocumentWorkflow byteRules docName
  let missingSections :=
    workflow.structure_.filter (fun s => ! hasSectionHeading s.data content.data)
  let needsUpdate := needsUpdateFlag content nowMs
  if missingSections.length > 0 then
    { documentType := docName
      status := "needs-update"
      recommendation := "Missing sections: " ++ String.intercalate ", " missingSections }
  else if needsUpdate then
    { documentType := docName
      status := "needs-update"
      recommendation := "Document may need updating (last update over 30 days ago)" }
  else
    { documentType := docName
      status := "good"
      recommendation := "Document follows the structure defined in ByteRules" }

/-- `analyzeDocumentConsistency(directory)` (lines 332-399): every corpus
entry whose name is one of the six standard types is analyzed, all others are
skipped (`continue`). -/
def analyzeDocumentConsistency (byteRules : String)
    (documents : List (String × String)) (nowMs : Int) : List ConsistencyEntry :=
  documents.filterMap (fun doc =>
    if doc.1 ∈ knownDocTypes then some (analyzeDoc byteRules doc.1 doc.2 nowMs)
    else none)

/-! ## Splitter helper lemmas -/

theorem sectionDelimHead_pos {l : List Char} {n : Nat}
    (h : sectionDelimHead l = some n) : 1 ≤ n := by
  unfold sectionDelimHead at h
  split at h
  · dsimp only at h
    split at h
    · split at h
      · simp only [Option.some.injEq] at h; omega
      · simp at h
    · simp at h
  · simp at h

theorem findSectionDelim_shrinks :
    ∀ (l p s : List Char), findSectionDelim l = some (p, s) → s.length < l.length := by
  intro l
  induction l with
  | nil => intro p s h; simp [findSectionDelim] at h
  | cons c rest ih =>
    intro p s h
    unfold findSectionDelim at h
    cases hd : sectionDelimHead (c :: rest) with
    | some n =>
      rw [hd] at h
      have hn : 1 ≤ n := sectionDelimHead_pos hd
      simp only [Option.some.injEq, Prod.mk.injEq] at h
      obtain ⟨-, rfl⟩ := h
      simp only [List.length_drop, List.length_cons]
      omega
    | none =>
      rw [hd] at h
      cases hf : findSectionDelim rest with
      | some ps =>
        obtain ⟨p', s'⟩ := ps
        rw [hf] at h
        simp only [Option.some.injEq, Prod.mk.injEq] at h
        obtain ⟨-, rfl⟩ := h
        have := ih p' s' hf
        simp only [List.length_cons]
        omega
      | none => rw [hf] at h; exact absurd h (by simp)

theorem paraDelimHead_pos {l : List Char} {n : Nat}
    (h : paraDelimHead l = some n) : 1 ≤ n := by
  unfold paraDelimHead at h
  split at h
  · simp only [Option.some.injEq] at h
    omega
  · simp at h

theorem findParaDelim_shrinks :
    ∀ (l p s : List Char), findParaDelim l = some (p, s) → s.length < l.length := by
  intro l
  induction l with
  | nil => intro p s h; simp [findParaDelim] at h
  | cons c rest ih =>
    intro p s h
    unfold findParaDelim at h
    cases hd : paraDelimHead (c :: rest) with
    | some n =>
      rw [hd] at h
      have hn : 1 ≤ n := paraDelimHead_pos hd
      simp only [Option.some.injEq, Prod.mk.injEq] at h
      obtain ⟨-, rfl⟩ := h
      simp only [List.length_drop, List.length_cons]
      omega
    | none =>
      rw [hd] at h
      cases hf : findParaDelim rest with
      | some ps =>
        obtain ⟨p', s'⟩ := ps
        rw [hf] at h
        simp only [Option.some.injEq, Prod.mk.injEq] at h
        obtain ⟨-, rfl⟩ := h
        have := ih p' s' hf
        simp only [List.length_cons]
        omega
      | none => rw [hf] at h; exact absurd h (by simp)

/-! ## Scorer theorems -/

theorem calculateRelevanceScore_le_one (query : String)
    (queryTerms : List (List Char)) (text : List Char) :
    calculateRelevanceScore query queryTerms text ≤ 1 := by
  simp only [calculateRelevanceScore]
  split
  · exact le_refl 1
  · have h1 : queryTerms.countP (fun term => containsSub (lowerL text) term) ≤
        queryTerms.length := List.countP_le_length _
    have hp : (if queryTerms.countP (fun term => containsSub (lowerL text) term) ≥ 2
        then (1:ℚ)/5 else 0) ≤ 1/5 := by
      split <;> norm_num
    by_cases hlen : queryTerms.length > 0
    · simp only [hlen, if_true]
      have hr : ((queryTerms.countP (fun term => containsSub (lowerL text) term) : ℚ) /
          (queryTerms.length : ℚ)) ≤ 1 := by
        rw [div_le_one (by exact_mod_cast hlen)]
        exact_mod_cast h1
      have hr0 : (0:ℚ) ≤ ((queryTerms.countP (fun term => containsSub (lowerL text) term) : ℚ) /
          (queryTerms.length : ℚ)) := by positivity
      nlinarith [hr, hr0, hp]
    · simp only [hlen, if_false]
      nlinarith [hp]

theorem threshold_eq : mkRat 3 10 = (3:ℚ)/10 := by
  rw [Rat.mkRat_eq_divInt, Rat.divInt_eq_div]; norm_num

theorem mem_collectResults_score {query : String} {documents : List (String × String)}
    {r : SearchResult} (h : r ∈ collectResults query documents) :
    3/10 < r.relevanceScore ∧
    ∃ p : List Char,
      r.relevanceScore = calculateRelevanceScore query (queryTermsOf query) p := by
  simp only [collectResults, List.mem_flatMap, List.mem_filterMap] at h
  obtain ⟨doc, -, sec, -, para, -, hsome⟩ := h
  split at hsome
  · cases hsome
    refine ⟨?_, para, rfl⟩
    rw [← threshold_eq]
    assumption
  · exact absurd hsome (by simp)

/-- C2 (amended): when the lower-cased paragraph does not contain the
lower-cased query as a substring, the score equals
`(matchCount / len(terms)) * 0.8 + proximityFactor`, where `matchCount`
counts the entries of the derived term list (with multiplicity — a duplicated
term is counted once per occurrence, not once per distinct term) that occur
as substrings of the lower-cased paragraph; the ratio is 0 when the term list
is empty, and the proximity factor is 0.2 exactly when `matchCount ≥ 2`. -/
theorem score_formula (query : String) (queryTerms : List (List Char))
    (text : List Char)
    (h : containsSub (lowerL text) (lowerL query.data) = false) :
    calculateRelevanceScore query queryTerms text =
      (if queryTerms.length > 0 then
        ((queryTerms.countP (fun term => containsSub (lowerL text) term) : ℚ) /
          (queryTerms.length : ℚ))
       else 0) * (4/5) +
      (if queryTerms.countP (fun term => containsSub (lowerL text) term) ≥ 2
       then 1/5 else 0) := by
  unfold calculateRelevanceScore
  simp only [h]
  norm_num

/-- C2 counterexample: for the query `"foo foo"` the derived term list is
`["foo", "foo"]`; against the paragraph `"say foo here"` (no verbatim match)
the source counts both duplicate entries, giving ratio 1 and the proximity
bonus, hence score 1 — while the spec's distinct-term reading gives
`(1/2) * 0.8 + 0 = 2/5`. -/
theorem score_formula_cx :
    calculateRelevanceScore "foo foo" (queryTermsOf "foo foo") "say foo here".data = 1 ∧
    specCalculateRelevanceScore "foo foo" (queryTermsOf "foo foo") "say foo here".data = 2/5 ∧
    containsSub (lowerL "say foo here".data) (lowerL "foo foo".data) = false := by
  have hc : containsSub (lowerL "say foo here".data) (lowerL "foo foo".data) = false := by
    decide
  have hcnt : (queryTermsOf "foo foo").countP
      (fun term => containsSub (lowerL "say foo here".data) term) = 2 := by decide
  have hcnt2 : (queryTermsOf "foo foo").dedup.countP
      (fun term => containsSub (lowerL "say foo here".data) term) = 1 := by decide
  have hlen : (queryTermsOf "foo foo").length = 2 := by decide
  refine ⟨?_, ?_, hc⟩
  · simp only [calculateRelevanceScore, hc, Bool.false_eq_true, if_false, hcnt, hlen]
    norm_num
  · simp only [specCalculateRelevanceScore, hc, Bool.false_eq_true, if_false, hcnt2, hlen]
    norm_num

/-- C2 witness: the amended formula evaluated at the counterexample input. -/
theorem score_formula_witness :
    calculateRelevanceScore "foo foo" (queryTermsOf "foo foo") "say foo here".data =
      (if (queryTermsOf "foo foo").length > 0 then
        (((queryTermsOf "foo foo").countP
            (fun term => containsSub (lowerL "say foo here".data) term) : ℚ) /
          ((queryTermsOf "foo foo").length : ℚ))
       else 0) * (4/5) +
      (if (queryTermsOf "foo foo").countP
            (fun term => containsSub (lowerL "say foo here".data) term) ≥ 2
       then 1/5 else 0) :=
  score_formula "foo foo" (queryTermsOf "foo foo") "say foo here".data (by decide)

/-! ## Search engine theorems -/

theorem scoreLe_trans (a b c : SearchResult) (h1 : scoreLe a b) (h2 : scoreLe b c) :
    scoreLe a c := by
  simp only [scoreLe, decide_eq_true_eq] at *
  exact le_trans h2 h1

theorem scoreLe_total (a b : SearchResult) : scoreLe a b || scoreLe b a := by
  simp only [scoreLe, Bool.or_eq_true, decide_eq_true_eq]
  exact le_total _ _

/-- C3: search returns at most 5 hits, sorted by non-increasing relevance
score, and (stability of the sort) two collected hits with equal scores keep
their encounter order — the result is the deterministic function
`take 5 ∘ stable-sort ∘ collect` of the corpus in iteration order. -/
theorem search_sorted_capped (query : String) (documents : List (String × String)) :
    performAdvancedSearch query documents =
      ((collectResults query documents).mergeSort scoreLe).take 5 ∧
    (performAdvancedSearch query documents).length ≤ 5 ∧
    (performAdvancedSearch query documents).Pairwise
      (fun a b => b.relevanceScore ≤ a.relevanceScore) ∧
    (∀ a b : SearchResult, a.relevanceScore = b.relevanceScore →
      [a, b].Sublist (collectResults query documents) →
      [a, b].Sublist ((collectResults query documents).mergeSort scoreLe)) := by
  refine ⟨rfl, ?_, ?_, ?_⟩
  · simp only [performAdvancedSearch, List.length_take]
    omega
  · have hs : ((collectResults query documents).mergeSort scoreLe).Pairwise
        (fun a b => scoreLe a b) :=
      List.sorted_mergeSort scoreLe_trans scoreLe_total _
    have hp := List.Pairwise.sublist
      (List.take_sublist 5 ((collectResults query documents).mergeSort scoreLe)) hs
    exact hp.imp (fun h => by simpa [scoreLe, decide_eq_true_eq] using h)
  · intro a b hab hsub
    exact List.pair_sublist_mergeSort scoreLe_trans scoreLe_total
      (by simp [scoreLe, hab.symm.le]) hsub

/-- Full evaluation of the search pipeline on a small corpus whose single
paragraph contains the query verbatim (used to instantiate the search
theorems at concrete inputs). -/
theorem searchExample_eval :
    performAdvancedSearch "ab cd" [("doc", "xx ab cd yy")] =
      [⟨"doc", 1, "**xx ab cd yy**: xx ab cd yy"⟩] := by
  have hc : collectResults "ab cd" [("doc", "xx ab cd yy")] =
      [⟨"doc", 1, "**xx ab cd yy**: xx ab cd yy"⟩] := by decide
  simp [performAdvancedSearch, hc]

theorem search_sorted_capped_witness :
    [(⟨"a", 1, "**hello there**: hello there"⟩ : SearchResult),
     ⟨"b", 1, "**hello there**: hello there"⟩].Sublist
      ((collectResults "hello there"
        [("a", "hello there"), ("b", "hello there")]).mergeSort scoreLe) := by
  have hc : collectResults "hello there" [("a", "hello there"), ("b", "hello there")] =
      [⟨"a", 1, "**hello there**: hello there"⟩,
       ⟨"b", 1, "**hello there**: hello there"⟩] := by decide
  exact (search_sorted_capped "hello there"
      [("a", "hello there"), ("b", "hello there")]).2.2.2 _ _ rfl
    (by rw [hc])

/-- C1 (amended): every relevance score attached to a returned SearchHit lies
in (0, 1] — indeed in (0.3, 1] — and a verbatim case-insensitive substring
match of the full query in the scored paragraph always scores exactly 1.0.
(The converse direction of the spec's "iff" fails: a score of 1.0 can also
arise without a verbatim match, see the counterexample.) -/
theorem score_range (query : String) (documents : List (String × String)) :
    (∀ r ∈ performAdvancedSearch query documents,
      0 < r.relevanceScore ∧ r.relevanceScore ≤ 1) ∧
    (∀ (queryTerms : List (List Char)) (text : List Char),
      containsSub (lowerL text) (lowerL query.data) = true →
      calculateRelevanceScore query queryTerms text = 1) := by
  constructor
  · intro r hr
    simp only [performAdvancedSearch] at hr
    have h1 : r ∈ (collectResults query documents).mergeSort scoreLe :=
      List.mem_of_mem_take hr
    rw [List.mem_mergeSort] at h1
    obtain ⟨hgt, p, hp⟩ := mem_collectResults_score h1
    refine ⟨lt_trans (by norm_num) hgt, ?_⟩
    rw [hp]
    exact calculateRelevanceScore_le_one _ _ _
  · intro terms text hc
    simp only [calculateRelevanceScore, hc, if_true]

/-- C1 counterexample: the query `"alpha beta"` is not a substring of
`"beta and alpha"`, yet both derived terms match, so the score is
`(2/2) * 0.8 + 0.2 = 1.0` — refuting "score 1.0 iff verbatim match". -/
theorem score_range_cx :
    calculateRelevanceScore "alpha beta" (queryTermsOf "alpha beta")
      "beta and alpha".data = 1 ∧
    containsSub (lowerL "beta and alpha".data) (lowerL "alpha beta".data) = false := by
  have hc : containsSub (lowerL "beta and alpha".data)
      (lowerL "alpha beta".data) = false := by decide
  have hcnt : (queryTermsOf "alpha beta").countP
      (fun term => containsSub (lowerL "beta and alpha".data) term) = 2 := by decide
  have hlen : (queryTermsOf "alpha beta").length = 2 := by decide
  refine ⟨?_, hc⟩
  simp only [calculateRelevanceScore, hc, Bool.false_eq_true, if_false, hcnt, hlen]
  norm_num

theorem score_range_witness :
    0 < (⟨"doc", 1, "**xx ab cd yy**: xx ab cd yy"⟩ : SearchResult).relevanceScore ∧
    (⟨"doc", 1, "**xx ab cd yy**: xx ab cd yy"⟩ : SearchResult).relevanceScore ≤ 1 :=
  (score_range "ab cd" [("doc", "xx ab cd yy")]).1 _
    (by rw [searchExample_eval]; exact List.mem_singleton_self _)

/-- C10: the exact-phrase short-circuit takes precedence over the
empty-term-list rule: a query all of whose whitespace tokens have length ≤ 2
derives an empty term list, yet a paragraph containing the lower-cased query
verbatim still scores 1.0 — and such a query produces search hits, as the
concrete corpus shows. -/
theorem short_query_exact_match (query : String) (text : List Char)
    (hterms : queryTermsOf query = [])
    (hcontains : containsSub (lowerL text) (lowerL query.data) = true) :
    calculateRelevanceScore query (queryTermsOf query) text = 1 ∧
    performAdvancedSearch "ab cd" [("doc", "xx ab cd yy")] ≠ [] := by
  refine ⟨?_, ?_⟩
  · simp only [calculateRelevanceScore, hcontains, if_true]
  · rw [searchExample_eval]
    simp

theorem short_query_exact_match_witness :
    calculateRelevanceScore "ab cd" (queryTermsOf "ab cd") "xx ab cd yy".data = 1 ∧
    performAdvancedSearch "ab cd" [("doc", "xx ab cd yy")] ≠ [] :=
  short_query_exact_match "ab cd" "xx ab cd yy".data (by decide) (by decide)

/-- C4: before the cap-at-5 truncation, a SearchHit is produced exactly for
the visited paragraphs whose relevance score is strictly greater than 0.3;
and when every paragraph of the corpus scores at most 0.3, `search` returns
the empty list (not an error). -/
theorem search_threshold (query : String) (documents : List (String × String)) :
    collectResults query documents =
      (searchCandidates query documents).filterMap (fun cand =>
        if 3/10 < calculateRelevanceScore query (queryTermsOf query) cand.2.2 then
          some (⟨cand.1, calculateRelevanceScore query (queryTermsOf query) cand.2.2,
            extractRelevantSnippet cand.2.2 (queryTermsOf query) cand.2.1⟩ : SearchResult)
        else none) ∧
    ((∀ cand ∈ searchCandidates query documents,
        calculateRelevanceScore query (queryTermsOf query) cand.2.2 ≤ 3/10) →
      performAdvancedSearch query documents = []) := by
  have heq : collectResults query documents =
      (searchCandidates query documents).filterMap (fun cand =>
        if 3/10 < calculateRelevanceScore query (queryTermsOf query) cand.2.2 then
          some (⟨cand.1, calculateRelevanceScore query (queryTermsOf query) cand.2.2,
            extractRelevantSnippet cand.2.2 (queryTermsOf query) cand.2.1⟩ : SearchResult)
        else none) := by
    simp only [collectResults, searchCandidates, List.filterMap_flatMap,
      List.filterMap_map, Function.comp_def, threshold_eq, gt_iff_lt]
  refine ⟨heq, ?_⟩
  intro hall
  have hnil : collectResults query documents = [] := by
    rw [heq, List.filterMap_eq_nil_iff]
    intro cand hc
    rw [if_neg]
    exact not_lt.mpr (hall cand hc)
  simp [performAdvancedSearch, hnil]

theorem search_threshold_witness :
    performAdvancedSearch "kubernetes operator reconciliation"
      [("projectbrief", "# Brief\n\nUnrelated filler text.")] = [] := by
  refine (search_threshold _ _).2 ?_
  intro cand hc
  have hcand : searchCandidates "kubernetes operator reconciliation"
      [("projectbrief", "# Brief\n\nUnrelated filler text.")] =
      [("projectbrief", "# Brief".data, "# Brief".data),
       ("projectbrief", "# Brief".data, "Unrelated filler text.".data)] := by decide
  rw [hcand] at hc
  have key : ∀ p : List Char,
      containsSub (lowerL p) (lowerL "kubernetes operator reconciliation".data) = false →
      (queryTermsOf "kubernetes operator reconciliation").countP
        (fun term => containsSub (lowerL p) term) = 0 →
      calculateRelevanceScore "kubernetes operator reconciliation"
        (queryTermsOf "kubernetes operator reconciliation") p ≤ 3/10 := by
    intro p h0 h1
    have hlen : (queryTermsOf "kubernetes operator reconciliation").length = 3 := by decide
    simp only [calculateRelevanceScore, h0, Bool.false_eq_true, if_false, h1, hlen]
    norm_num
  simp only [List.mem_cons, List.mem_singleton, List.not_mem_nil, or_false] at hc
  rcases hc with rfl | rfl
  · exact key _ (by decide) (by decide)
  · exact key _ (by decide) (by decide)

/-! ## Schema extraction and consistency analysis theorems -/

/-- C5: the schema-extraction fallbacks never raise (the function is total)
and return the fixed defaults.  When the rules text contains no section
matching the document type, the whole workflow record is the default —
generic purpose string, `updateTiming = "As needed"`, the single placeholder
required section, the single synthesized `update_document <type>` command.
When a section does match but one of its bold-label fields is missing, that
field falls back to its own default (the purpose default in this branch lacks
the trailing `" document"`, exactly as in the source, lines 248-275). -/
theorem workflow_fallback (byteRulesContent : String) (documentType : String) :
    (findTypeSection (replaceContextSp documentType.data) byteRulesContent.data =
        none →
      getDocumentWorkflow byteRulesContent documentType =
        { purpose := "Information about " ++ documentType ++ " document"
          updateTiming := "As needed"
          structure_ := ["No specific structure defined"]
          commands := ["update_document " ++ String.mk (lowerL documentType.data)] }) ∧
    (∀ sectionContent,
      findTypeSection (replaceContextSp documentType.data) byteRulesContent.data =
        some sectionContent →
      (fieldLineCapture "**Purpose**:".data sectionContent = none →
        (getDocumentWorkflow byteRulesContent documentType).purpose =
          "Information about " ++ documentType) ∧
      (fieldLineCapture "**When to Update**:".data sectionContent = none →
        (getDocumentWorkflow byteRulesContent documentType).updateTiming =
          "As needed") ∧
      (fieldBlockCapture "**Structure**:".data sectionContent = none →
        (getDocumentWorkflow byteRulesContent documentType).structure_ =
          ["No specific structure defined"]) ∧
      (fieldBlockCapture "**Commands**:".data sectionContent = none →
        (getDocumentWorkflow byteRulesContent documentType).commands =
          ["update_document " ++ String.mk (lowerL documentType.data)])) := by
  constructor
  · intro h
    simp only [getDocumentWorkflow, h]
  · intro sectionContent hsec
    refine ⟨?_, ?_, ?_, ?_⟩
    · intro h
      simp only [getDocumentWorkflow, hsec, h]
    · intro h
      simp only [getDocumentWorkflow, hsec, h]
    · intro h
      simp only [getDocumentWorkflow, hsec, parseStructure, h]
    · intro h
      simp only [getDocumentWorkflow, hsec, parseCommands, h]

/-- C5 witness: rules text with no `progress` section yields exactly the
defaults the spec names, including `commands = ["update_document progress"]`;
and rules text whose `progress` section carries none of the bold-label
fields yields every per-field default. -/
theorem workflow_fallback_witness :
    getDocumentWorkflow "# Rules\nNothing here." "progress" =
      { purpose := "Information about progress document"
        updateTiming := "As needed"
        structure_ := ["No specific structure defined"]
        commands := ["update_document progress"] } ∧
    (getDocumentWorkflow "### 1. progress (progress.md)\nno labels"
      "progress").purpose = "Information about progress" ∧
    (getDocumentWorkflow "### 1. progress (progress.md)\nno labels"
      "progress").updateTiming = "As needed" ∧
    (getDocumentWorkflow "### 1. progress (progress.md)\nno labels"
      "progress").structure_ = ["No specific structure defined"] ∧
    (getDocumentWorkflow "### 1. progress (progress.md)\nno labels"
      "progress").commands = ["update_document progress"] := by
  have h1 := (workflow_fallback "# Rules\nNothing here." "progress").1 (by decide)
  have h2 := (workflow_fallback "### 1. progress (progress.md)\nno labels"
    "progress").2 "### 1. progress (progress.md)\nno labels".data (by decide)
  refine ⟨by rw [h1]; decide, ?_, ?_, ?_, ?_⟩
  · rw [h2.1 (by decide)]
    decide
  · rw [h2.2.1 (by decide)]
  · rw [h2.2.2.1 (by decide)]
  · rw [h2.2.2.2 (by decide)]
    decide

/-- C6 (amended): the staleness flag is true exactly when either the body has
no `Last Updated: YYYY-MM-DD` marker at all, or the first marker's date is a
valid calendar date whose (midnight UTC) timestamp is more than 30 days
before now.  A matched marker whose date is invalid (month or day out of
range) parses to an Invalid Date, whose `NaN` time value makes the comparison
false — so it is treated as NOT needing an update, not as an error and not as
stale. -/
theorem staleness_flag (content : String) (nowMs : Int) :
    needsUpdateFlag content nowMs = true ↔
      (findLastUpdated content.data = none ∨
       ∃ ds days, findLastUpdated content.data = some ds ∧
         parseJsDate ds = some days ∧
         days * 86400000 < nowMs - 30 * 86400000) := by
  unfold needsUpdateFlag
  cases hf : findLastUpdated content.data with
  | none => simp
  | some ds =>
    cases hp : parseJsDate ds with
    | none => simp [hp]
    | some days => simp [hp]

/-- C6 counterexample: `"Last Updated: 2024-13-45"` matches the marker regex
but month 13 is no valid date, and `needsUpdate` comes out false (for any
`now` — here 2023-11-14T22:13:20Z) although the claim requires a
date-parsing failure to be treated as "needs update"; and a date exactly 30
days old (`1970-01-31` with now = 1970-03-02T00:00:00Z) is also not flagged,
because the source compares strictly. -/
theorem staleness_flag_cx :
    findLastUpdated "Last Updated: 2024-13-45".data = some "2024-13-45".data ∧
    parseJsDate "2024-13-45".data = none ∧
    needsUpdateFlag "Last Updated: 2024-13-45" 1700000000000 = false ∧
    needsUpdateFlag "Last Updated: 1970-01-31" 5184000000 = false := by
  refine ⟨by decide, by decide, by decide, by decide⟩

/-- C6 witness: a body without any marker is flagged stale. -/
theorem staleness_flag_witness :
    needsUpdateFlag "no marker here" 1700000000000 = true :=
  (staleness_flag "no marker here" 1700000000000).mpr (Or.inl (by decide))

/-- C7: the analyzer's status policy, in priority order: a document with
missing required sections is `needs-update` with a recommendation naming
exactly the missing section names (joined by `", "`), regardless of its
`Last Updated` date; otherwise the staleness flag decides between
`needs-update` and `good`; and each analyzed corpus entry of a known type
contributes exactly this entry to the analysis output. -/
theorem analyze_policy (byteRules : String) (documents : List (String × String))
    (nowMs : Int) (docName content : String)
    (hmem : (docName, content) ∈ documents) (hknown : docName ∈ knownDocTypes) :
    analyzeDoc byteRules docName content nowMs ∈
      analyzeDocumentConsistency byteRules documents nowMs ∧
    (let missing := (getDocumentWorkflow byteRules docName).structure_.filter
        (fun s => ! hasSectionHeading s.data content.data)
     (missing ≠ [] →
        (analyzeDoc byteRules docName content nowMs).status = "needs-update" ∧
        (analyzeDoc byteRules docName content nowMs).recommendation =
          "Missing sections: " ++ String.intercalate ", " missing) ∧
     (missing = [] → needsUpdateFlag content nowMs = true →
        (analyzeDoc byteRules docName content nowMs).status = "needs-update") ∧
     (missing = [] → needsUpdateFlag content nowMs = false →
        (analyzeDoc byteRules docName content nowMs).status = "good" ∧
        (analyzeDoc byteRules docName content nowMs).recommendation =
          "Document follows the structure defined in ByteRules")) := by
  constructor
  · simp only [analyzeDocumentConsistency, List.mem_filterMap]
    exact ⟨(docName, content), hmem, by simp [hknown]⟩
  · refine ⟨?_, ?_, ?_⟩
    · intro hne
      have hpos : ((getDocumentWorkflow byteRules docName).structure_.filter
          (fun s => ! hasSectionHeading s.data content.data)).length > 0 :=
        List.length_pos.mpr hne
      simp [analyzeDoc, hpos]
    · intro hz hupd
      have hlen : ((getDocumentWorkflow byteRules docName).structure_.filter
          (fun s => ! hasSectionHeading s.data content.data)).length > 0 ↔ False := by
        simp [hz]
      simp only [analyzeDoc, hlen, if_false, hupd, if_true]
    · intro hz hupd
      have hlen : ((getDocumentWorkflow byteRules docName).structure_.filter
          (fun s => ! hasSectionHeading s.data content.data)).length > 0 ↔ False := by
        simp [hz]
      simp [analyzeDoc, hlen, hupd]

/-- C7 witness: a `progress` document missing the (default) required section
is reported `needs-update` with the missing section named, and its entry
appears in the analysis output. -/
theorem analyze_policy_witness :
    (analyzeDoc "x" "progress" "hello" 0).status = "needs-update" ∧
    (analyzeDoc "x" "progress" "hello" 0).recommendation =
      "Missing sections: " ++ String.intercalate ", "
        ((getDocumentWorkflow "x" "progress").structure_.filter
          (fun s => ! hasSectionHeading s.data "hello".data)) :=
  ((analyze_policy "x" [("progress", "hello")] 0 "progress" "hello"
    (by decide) (by decide)).2.1) (by decide)

/-! ## Snippet boundary theorems -/

theorem widenStart_le (text : List Char) : ∀ s, widenStart text s ≤ s
  | 0 => le_refl 0
  | s + 1 => by
    unfold widenStart
    split
    · exact le_refl _
    · exact le_trans (widenStart_le text s) (Nat.le_succ s)

theorem widenStart_boundary (text : List Char) : ∀ s,
    widenStart text s = 0 ∨ isSpaceNl text[widenStart text s]? = true
  | 0 => Or.inl rfl
  | s + 1 => by
    unfold widenStart
    split
    · exact Or.inr (by assumption)
    · exact widenStart_boundary text s

theorem widenEndGo_ge (text : List Char) :
    ∀ fuel e, e ≤ widenEndGo text fuel e := by
  intro fuel
  induction fuel with
  | zero => intro e; exact le_refl e
  | succ fuel ih =>
    intro e
    unfold widenEndGo
    split
    · split
      · exact le_refl e
      · exact le_trans (Nat.le_succ e) (ih (e + 1))
    · exact le_refl e

theorem widenEndGo_le_length (text : List Char) :
    ∀ fuel e, e ≤ text.length → widenEndGo text fuel e ≤ text.length := by
  intro fuel
  induction fuel with
  | zero => intro e h; exact h
  | succ fuel ih =>
    intro e h
    unfold widenEndGo
    split
    · split
      · exact h
      · exact ih (e + 1) (by omega)
    · exact h

theorem widenEndGo_boundary (text : List Char) :
    ∀ fuel e, text.length - e ≤ fuel → widenEndGo text fuel e < text.length →
      isSpaceNl text[widenEndGo text fuel e]? = true := by
  intro fuel
  induction fuel with
  | zero =>
    intro e hf hlt
    have h0 : widenEndGo text 0 e = e := rfl
    rw [h0] at hlt
    exact absurd hlt (by omega)
  | succ fuel ih =>
    intro e hf hlt
    have hstep : widenEndGo text (fuel + 1) e =
        if e < text.length then
          (if isSpaceNl text[e]? then e else widenEndGo text fuel (e + 1))
        else e := rfl
    by_cases hel : e < text.length
    · by_cases hbd : isSpaceNl text[e]? = true
      · have heq : widenEndGo text (fuel + 1) e = e := by
          rw [hstep, if_pos hel, if_pos hbd]
        rw [heq]
        exact hbd
      · have heq : widenEndGo text (fuel + 1) e = widenEndGo text fuel (e + 1) := by
          rw [hstep, if_pos hel, if_neg hbd]
        rw [heq] at hlt ⊢
        exact ih (e + 1) (by omega) hlt
    · have heq : widenEndGo text (fuel + 1) e = e := by
        rw [hstep, if_neg hel]
      rw [heq] at hlt
      exact absurd hlt hel

theorem foldl_best_lt (f : Nat → Nat) {n : Nat} :
    ∀ (l : List Nat) (p : Nat × Nat), (∀ i ∈ l, i < n) → p.1 < n →
      (l.foldl (fun best i => if f i > best.2 then (i, f i) else best) p).1 < n := by
  intro l
  induction l with
  | nil => intro p _ hp; exact hp
  | cons a t ih =>
    intro p hl hp
    simp only [List.foldl_cons]
    apply ih
    · intro i hi
      exact hl i (List.mem_cons_of_mem _ hi)
    · dsimp only
      split
      · exact hl a (List.mem_cons_self _ _)
      · exact hp

theorem bestMatch_fst_lt (lowerText : List Char) (queryTerms : List (List Char))
    (h : 0 < lowerText.length) :
    (bestMatch lowerText queryTerms).1 < lowerText.length :=
  foldl_best_lt (termCountAt lowerText queryTerms)
    (List.range lowerText.length) (0, 0)
    (fun i hi => List.mem_range.mp hi) h

theorem snippetStartPos_le_endPos (text : List Char) (queryTerms : List (List Char))
    (h : 0 < text.length) :
    snippetStartPos text queryTerms ≤ snippetEndPos text queryTerms ∧
    snippetEndPos text queryTerms ≤ text.length := by
  have hbp : (bestMatch (lowerL text) queryTerms).1 < text.length := by
    have := bestMatch_fst_lt (lowerL text) queryTerms (by simpa [lowerL] using h)
    simpa [lowerL] using this
  constructor
  · calc snippetStartPos text queryTerms
        ≤ (bestMatch (lowerL text) queryTerms).1 - 30 := widenStart_le _ _
      _ ≤ min text.length ((bestMatch (lowerL text) queryTerms).1 + 120) := by omega
      _ ≤ snippetEndPos text queryTerms := widenEndGo_ge _ _ _
  · exact widenEndGo_le_length _ _ _ (min_le_left _ _)

theorem snippetStartPos_boundary (text : List Char) (queryTerms : List (List Char)) :
    snippetStartPos text queryTerms = 0 ∨
    isSpaceNl text[snippetStartPos text queryTerms]? = true :=
  widenStart_boundary text _

theorem snippetEndPos_boundary (text : List Char) (queryTerms : List (List Char))
    (h : snippetEndPos text queryTerms < text.length) :
    isSpaceNl text[snippetEndPos text queryTerms]? = true :=
  widenEndGo_boundary text _ _ (le_refl _) h

theorem isSpaceNl_ws {c : Char} (h : isSpaceNl (some c) = true) : jsWs c = true := by
  simp only [isSpaceNl, Bool.or_eq_true, beq_iff_eq] at h
  rcases h with rfl | rfl <;> rfl

theorem trimList_decomp (l : List Char) :
    ∃ b, l = l.takeWhile jsWs ++ trimList l ++ b ∧ ∀ c ∈ b, jsWs c = true := by
  refine ⟨((l.dropWhile jsWs).reverse.takeWhile jsWs).reverse, ?_, ?_⟩
  · have hkey : trimList l ++ ((l.dropWhile jsWs).reverse.takeWhile jsWs).reverse =
        l.dropWhile jsWs := by
      unfold trimList
      rw [← List.reverse_append, List.takeWhile_append_dropWhile, List.reverse_reverse]
    rw [List.append_assoc, hkey, List.takeWhile_append_dropWhile]
  · intro c hc
    rw [List.mem_reverse] at hc
    exact List.mem_takeWhile_imp hc

/-- The word-boundary property of the trimmed snippet window, stated for any
positions `s ≤ e ≤ length` whose boundary characters are a space or a
newline (or sit at the ends of the text): the trimmed slice re-embeds into
the text with whitespace (or nothing) on both sides. -/
theorem slice_trim_boundaries (text : List Char) (s e : Nat)
    (hse : s ≤ e) (hel : e ≤ text.length)
    (hsb : s = 0 ∨ isSpaceNl text[s]? = true)
    (heb : e < text.length → isSpaceNl text[e]? = true)
    (hne : trimList ((text.drop s).take (e - s)) ≠ []) :
    ∃ pre post, text = pre ++ trimList ((text.drop s).take (e - s)) ++ post ∧
      (pre = [] ∨ ∃ c, pre.getLast? = some c ∧ jsWs c = true) ∧
      (post = [] ∨ ∃ c, post.head? = some c ∧ jsWs c = true) := by
  obtain ⟨b, hdecomp, hb⟩ := trimList_decomp ((text.drop s).take (e - s))
  have htext : text = text.take s ++ (text.drop s).take (e - s) ++ text.drop e := by
    have h3 : ((text.drop s).drop (e - s)) = text.drop e := by
      rw [List.drop_drop]
      congr 1
      omega
    conv_lhs => rw [← List.take_append_drop s text]
    rw [List.append_assoc]
    congr 1
    conv_lhs => rw [← List.take_append_drop (e - s) (text.drop s)]
    rw [h3]
  refine ⟨text.take s ++ ((text.drop s).take (e - s)).takeWhile jsWs,
    b ++ text.drop e, ?_, ?_, ?_⟩
  · calc text = text.take s ++ (text.drop s).take (e - s) ++ text.drop e := htext
      _ = text.take s ++ (((text.drop s).take (e - s)).takeWhile jsWs ++
            trimList ((text.drop s).take (e - s)) ++ b) ++ text.drop e := by
          rw [← hdecomp]
      _ = _ := by simp [List.append_assoc]
  · by_cases ha : ((text.drop s).take (e - s)).takeWhile jsWs = []
    · rcases hsb with h0 | hws
      · left
        subst h0
        rw [List.take_zero, List.nil_append, ha]
      · exfalso
        have hslne : (text.drop s).take (e - s) ≠ [] := by
          intro hn
          apply hne
          rw [hn]
          rfl
        cases hsl0 : (text.drop s).take (e - s) with
        | nil => exact hslne hsl0
        | cons c t =>
          have hcws : jsWs c = false := by
            by_contra hcw
            simp only [Bool.not_eq_false] at hcw
            rw [hsl0] at ha
            simp [List.takeWhile_cons, hcw] at ha
          have hh : text[s]? = some c := by
            have h1 : ((text.drop s).take (e - s)).head? = some c := by
              rw [hsl0]
              rfl
            rw [List.head?_take] at h1
            split at h1
            · exact absurd h1 (by simp)
            · rw [List.head?_eq_getElem?, List.getElem?_drop] at h1
              simpa using h1
          rw [hh] at hws
          rw [isSpaceNl_ws hws] at hcws
          exact absurd hcws (by simp)
    · right
      have hane := ha
      obtain ⟨c, hc⟩ := Option.ne_none_iff_exists'.mp
        (mt List.getLast?_eq_none_iff.mp hane)
      refine ⟨c, ?_, ?_⟩
      · rw [List.getLast?_append, hc]
        rfl
      · exact List.mem_takeWhile_imp (List.mem_of_getLast?_eq_some hc)
  · by_cases hbn : b = []
    · subst hbn
      by_cases hee : e < text.length
      · right
        have hws := heb hee
        have hh : (text.drop e).head? = text[e]? := by
          rw [List.head?_eq_getElem?, List.getElem?_drop]
          simp
        cases hg : text[e]? with
        | none =>
          rw [hg] at hws
          exact absurd hws (by simp [isSpaceNl])
        | some c =>
          refine ⟨c, ?_, ?_⟩
          · rw [List.nil_append, hh, hg]
          · rw [hg] at hws
            exact isSpaceNl_ws hws
      · left
        have : text.drop e = [] := List.drop_eq_nil_of_le (by omega)
        simp [this]
    · right
      cases b with
      | nil => exact absurd rfl hbn
      | cons c t =>
        exact ⟨c, rfl, hb c (List.mem_cons_self _ _)⟩

/-- C8 (amended): the extracted snippet is the window
`[snippetStartPos, snippetEndPos)` — centered 30 characters before the
best-scoring offset, extended toward 150 characters, widened outward to the
nearest space or newline — trimmed, wrapped in ellipses/title markup; and the
snippet never splits a word in the following sense: the character of the
paragraph immediately before the snippet's first non-ellipsis character, and
the character immediately after its last non-ellipsis character, is a
whitespace character (space, newline, tab or carriage return) or out of the
paragraph's bounds.  (The spec's "space or newline" is too narrow: `trim` also
strips tabs, see the counterexample.) -/
theorem snippet_word_boundaries (text : List Char) (queryTerms : List (List Char))
    (sectionTitle : List Char) (hne : snippetCore text queryTerms ≠ []) :
    extractRelevantSnippet text queryTerms sectionTitle =
      (if sectionTitle.isEmpty then
        String.mk ((if snippetStartPos text queryTerms > 0 then "...".data else []) ++
          (snippetCore text queryTerms ++
            (if snippetEndPos text queryTerms < text.length then "...".data else [])))
       else
        String.mk ("**".data ++ sectionTitle ++ "**: ".data ++
          ((if snippetStartPos text queryTerms > 0 then "...".data else []) ++
            (snippetCore text queryTerms ++
              (if snippetEndPos text queryTerms < text.length then "...".data else []))))) ∧
    ∃ pre post, text = pre ++ snippetCore text queryTerms ++ post ∧
      (pre = [] ∨ ∃ c, pre.getLast? = some c ∧ jsWs c = true) ∧
      (post = [] ∨ ∃ c, post.head? = some c ∧ jsWs c = true) := by
  constructor
  · simp [extractRelevantSnippet, List.append_assoc]
  · have hlen : 0 < text.length := by
      rcases Nat.eq_zero_or_pos text.length with h0 | h0
      · exfalso
        apply hne
        have htext0 : text = [] := List.eq_nil_of_length_eq_zero h0
        rw [htext0]
        rfl
      · exact h0
    obtain ⟨hse, hel⟩ := snippetStartPos_le_endPos text queryTerms hlen
    exact slice_trim_boundaries text (snippetStartPos text queryTerms)
      (snippetEndPos text queryTerms) hse hel
      (snippetStartPos_boundary text queryTerms)
      (snippetEndPos_boundary text queryTerms) hne

/-- C8 counterexample: for the paragraph `"\tword"` (empty term list, no
title) the snippet comes out as `"word"` with no ellipses, so its first
non-ellipsis character is the `w` at offset 1 — and the character immediately
before it in the paragraph is a tab, which is neither a space nor a newline
nor out of bounds. -/
theorem snippet_word_boundaries_cx :
    extractRelevantSnippet "\tword".data [] [] = "word" ∧
    "\tword".data = ['\t'] ++ "word".data ∧
    ('\t' == ' ') = false ∧ ('\t' == '\n') = false := by
  exact ⟨by decide, by decide, by decide, by decide⟩

theorem snippet_word_boundaries_witness :
    ∃ pre post,
      "hello world".data = pre ++ snippetCore "hello world".data [] ++ post ∧
      (pre = [] ∨ ∃ c, pre.getLast? = some c ∧ jsWs c = true) ∧
      (post = [] ∨ ∃ c, post.head? = some c ∧ jsWs c = true) :=
  (snippet_word_boundaries "hello world".data [] [] (by decide)).2

/-! ## Section/paragraph splitter theorems -/

theorem takeWhile_append_left {p : Char → Bool} {x : List Char} (y : List Char)
    (h : (x.takeWhile p).length < x.length) :
    (x ++ y).takeWhile p = x.takeWhile p := by
  induction x with
  | nil => simp at h
  | cons a t ih =>
    by_cases hp : p a
    · simp only [List.takeWhile_cons, hp, if_true, List.length_cons] at h
      simp only [List.cons_append, List.takeWhile_cons, hp, if_true]
      rw [ih (by omega)]
    · simp only [List.cons_append, List.takeWhile_cons, hp]
      simp

theorem sectionDelimHead_shape :
    ∀ {l : List Char} {n : Nat}, sectionDelimHead l = some n →
    ∃ d, isSectionDelim d ∧ d.length = n ∧ l.take n = d := by
  intro l n h
  unfold sectionDelimHead at h
  split at h
  next rest =>
    dsimp only at h
    split at h
    next hk =>
      split at h
      next hw =>
        simp only [Option.some.injEq] at h
        have hpfx : rest.takeWhile (fun c => c == '#') =
            rest.take (hashRun rest) :=
          List.prefix_iff_eq_take.mp (List.takeWhile_prefix _)
        have hrepl : rest.takeWhile (fun c => c == '#') =
            List.replicate (hashRun rest) '#' := by
          have hall : ∀ b ∈ rest.takeWhile (fun c => c == '#'), b = '#' := by
            intro b hb
            have := List.mem_takeWhile_imp hb
            simpa using this
          have := List.eq_replicate_of_mem hall
          simpa [hashRun] using this
        have hwfx : (rest.drop (hashRun rest)).takeWhile jsWs =
            (rest.drop (hashRun rest)).take
              (((rest.drop (hashRun rest)).takeWhile jsWs).length) :=
          List.prefix_iff_eq_take.mp (List.takeWhile_prefix _)
        refine ⟨'\n' :: (List.replicate (hashRun rest) '#' ++
          (rest.drop (hashRun rest)).takeWhile jsWs), ?_, ?_, ?_⟩
        · refine ⟨hashRun rest, (rest.drop (hashRun rest)).takeWhile jsWs, hk, ?_,
            (fun c hc => List.mem_takeWhile_imp hc), rfl⟩
          intro hnil
          rw [hnil] at hw
          simp at hw
        · simp only [List.length_cons, List.length_append, List.length_replicate]
          omega
        · rw [← h]
          rw [show 1 + hashRun rest +
              ((rest.drop (hashRun rest)).takeWhile jsWs).length =
              (hashRun rest +
                ((rest.drop (hashRun rest)).takeWhile jsWs).length) + 1 from by omega]
          rw [List.take_succ_cons]
          congr 1
          rw [List.take_add, ← hpfx, hrepl]
          congr 1
          rw [← hwfx]
      next => exact absurd h (by simp)
    next => exact absurd h (by simp)
  next => exact absurd h (by simp)

theorem sectionDelimHead_extend {x : List Char} (y : List Char) {n : Nat}
    (h : sectionDelimHead x = some n) :
    ∃ m, sectionDelimHead (x ++ y) = some m := by
  unfold sectionDelimHead at h
  split at h
  next rest =>
    dsimp only at h
    split at h
    next hk =>
      split at h
      next hw =>
        have hne : rest.drop (hashRun rest) ≠ [] := by
          intro h0
          rw [h0] at hw
          simp at hw
        have hlt : hashRun rest < rest.length := by
          by_contra hge
          push_neg at hge
          exact hne (List.drop_eq_nil_of_le hge)
        have hhr : hashRun (rest ++ y) = hashRun rest := by
          unfold hashRun
          rw [takeWhile_append_left y hlt]
        have hdrop : (rest ++ y).drop (hashRun rest) =
            rest.drop (hashRun rest) ++ y :=
          List.drop_append_of_le_length (le_of_lt hlt)
        cases hrd : rest.drop (hashRun rest) with
        | nil => exact absurd hrd hne
        | cons c t =>
          have hcws : jsWs c = true := by
            rw [hrd] at hw
            by_contra hcw
            simp only [Bool.not_eq_true] at hcw
            simp [List.takeWhile_cons, hcw] at hw
          show ∃ m, sectionDelimHead ('\n' :: (rest ++ y)) = some m
          simp only [sectionDelimHead]
          rw [hhr, if_pos hk, hdrop, hrd]
          rw [show (c :: t) ++ y = c :: (t ++ y) from rfl]
          rw [List.takeWhile_cons, if_pos hcws]
          simp
      next => exact absurd h (by simp)
    next => exact absurd h (by simp)
  next => exact absurd h (by simp)

theorem findSectionDelim_none :
    ∀ l, findSectionDelim l = none → ∀ i, sectionDelimHead (l.drop i) = none := by
  intro l
  induction l with
  | nil =>
    intro _ i
    rw [List.drop_nil]
    rfl
  | cons c rest ih =>
    intro h i
    unfold findSectionDelim at h
    cases hd : sectionDelimHead (c :: rest) with
    | some n => rw [hd] at h; exact absurd h (by simp)
    | none =>
      rw [hd] at h
      cases hf : findSectionDelim rest with
      | some ps =>
        obtain ⟨p, s⟩ := ps
        rw [hf] at h
        exact absurd h (by simp)
      | none =>
        cases i with
        | zero => simpa using hd
        | succ j => simpa using ih hf j

theorem findSectionDelim_spec :
    ∀ (l p s : List Char), findSectionDelim l = some (p, s) →
      (∀ i, i < p.length → sectionDelimHead (l.drop i) = none) ∧
      p = l.take p.length ∧
      ∃ n, sectionDelimHead (l.drop p.length) = some n ∧
        s = l.drop (p.length + n) := by
  intro l
  induction l with
  | nil => intro p s h; simp [findSectionDelim] at h
  | cons c rest ih =>
    intro p s h
    unfold findSectionDelim at h
    cases hd : sectionDelimHead (c :: rest) with
    | some n =>
      rw [hd] at h
      simp only [Option.some.injEq, Prod.mk.injEq] at h
      obtain ⟨rfl, rfl⟩ := h
      refine ⟨fun i hi => absurd hi (by simp), rfl, n, ?_, by simp⟩
      simpa using hd
    | none =>
      rw [hd] at h
      cases hf : findSectionDelim rest with
      | some ps =>
        obtain ⟨p', s'⟩ := ps
        rw [hf] at h
        simp only [Option.some.injEq, Prod.mk.injEq] at h
        obtain ⟨rfl, rfl⟩ := h
        obtain ⟨hnone, hptake, n, hn, hs⟩ := ih p' s' hf
        refine ⟨?_, ?_, n, ?_, ?_⟩
        · intro i hi
          cases i with
          | zero => simpa using hd
          | succ j =>
            have hj : j < p'.length := by
              simpa using hi
            simpa using hnone j hj
        · rw [List.length_cons, List.take_succ_cons, ← hptake]
        · simpa using hn
        · simp only [List.length_cons]
          rw [show p'.length + 1 + n = (p'.length + n) + 1 from by omega]
          simpa using hs
      | none => rw [hf] at h; exact absurd h (by simp)

theorem splitSectionsGo_ne_nil (fuel : Nat) (l : List Char) :
    splitSectionsGo fuel l ≠ [] := by
  cases fuel with
  | zero => simp [splitSectionsGo]
  | succ f =>
    unfold splitSectionsGo
    cases h : findSectionDelim l with
    | none => simp
    | some ps =>
      obtain ⟨p, s⟩ := ps
      simp

theorem splitSectionsGo_spec :
    ∀ (fuel : Nat) (l : List Char), l.length ≤ fuel →
      ∃ delims, delims.length + 1 = (splitSectionsGo fuel l).length ∧
        (∀ d ∈ delims, isSectionDelim d) ∧
        interleave (splitSectionsGo fuel l) delims = l ∧
        ∀ c ∈ splitSectionsGo fuel l, ∀ i, sectionDelimHead (c.drop i) = none := by
  intro fuel
  induction fuel with
  | zero =>
    intro l hl
    have hnil : l = [] := List.eq_nil_of_length_eq_zero (by omega)
    subst hnil
    refine ⟨[], rfl, by simp, rfl, ?_⟩
    intro c hc i
    have hceq : c = ([] : List Char) := by
      simpa [splitSectionsGo] using hc
    subst hceq
    rw [List.drop_nil]
    rfl
  | succ fuel ih =>
    intro l hl
    have hstep : splitSectionsGo (fuel + 1) l =
        match findSectionDelim l with
        | none => [l]
        | some (p, s) => p :: splitSectionsGo fuel s := rfl
    cases hf : findSectionDelim l with
    | none =>
      rw [hstep, hf]
      refine ⟨[], rfl, by simp, rfl, ?_⟩
      intro c hc i
      have hceq : c = l := by simpa using hc
      rw [hceq]
      exact findSectionDelim_none l hf i
    | some ps =>
      obtain ⟨p, s⟩ := ps
      rw [hstep, hf]
      dsimp only
      obtain ⟨hnone, hptake, n, hn, hs⟩ := findSectionDelim_spec l p s hf
      obtain ⟨d, hdelim, hdlen, hdtake⟩ := sectionDelimHead_shape hn
      have hshrink : s.length < l.length := findSectionDelim_shrinks l p s hf
      obtain ⟨delims', hlen', hmem', hint', hnod'⟩ := ih s (by omega)
      have hl_decomp : l = p ++ d ++ s := by
        conv_lhs => rw [← List.take_append_drop p.length l]
        rw [← hptake, List.append_assoc]
        congr 1
        conv_lhs => rw [← List.take_append_drop n (l.drop p.length)]
        rw [hdtake, List.drop_drop, ← hs]
      have hplen : p.length ≤ l.length := by
        rw [hl_decomp]
        simp only [List.append_assoc, List.length_append]
        omega
      refine ⟨d :: delims', ?_, ?_, ?_, ?_⟩
      · simp only [List.length_cons]
        omega
      · intro d' hd'
        rcases List.mem_cons.mp hd' with rfl | hmem
        · exact hdelim
        · exact hmem' d' hmem
      · cases hgo : splitSectionsGo fuel s with
        | nil => exact absurd hgo (splitSectionsGo_ne_nil fuel s)
        | cons c2 cs =>
          rw [hgo] at hint'
          show p ++ d ++ interleave (c2 :: cs) delims' = l
          rw [hint', hl_decomp]
      · intro c hc i
        rcases List.mem_cons.mp hc with rfl | hmemc
        · by_cases hip : i < c.length
          · cases hsome : sectionDelimHead (c.drop i) with
            | none => rfl
            | some m =>
              exfalso
              obtain ⟨m', hm'⟩ := sectionDelimHead_extend (d ++ s) hsome
              have hdropeq : c.drop i ++ (d ++ s) = l.drop i := by
                conv_rhs => rw [hl_decomp]
                rw [List.append_assoc]
                rw [List.drop_append_of_le_length (le_of_lt hip)]
              rw [hdropeq, hnone i hip] at hm'
              exact absurd hm' (by simp)
          · push_neg at hip
            rw [List.drop_eq_nil_of_le hip]
            rfl
        · exact hnod' c hmemc i

theorem paraDelimHead_shape :
    ∀ {l : List Char} {n : Nat}, paraDelimHead l = some n →
    ∃ d, isParaDelim d ∧ d.length = n ∧ l.take n = d := by
  intro l n h
  unfold paraDelimHead at h
  split at h
  next rest =>
    simp only [Option.some.injEq] at h
    have hpfx : rest.takeWhile (fun c => c == '\n') =
        rest.take ((rest.takeWhile (fun c => c == '\n')).length) :=
      List.prefix_iff_eq_take.mp (List.takeWhile_prefix _)
    have hrepl : rest.takeWhile (fun c => c == '\n') =
        List.replicate ((rest.takeWhile (fun c => c == '\n')).length) '\n' := by
      apply List.eq_replicate_of_mem
      intro b hb
      have := List.mem_takeWhile_imp hb
      simpa using this
    refine ⟨List.replicate n '\n', ⟨n, by omega, rfl⟩, by simp, ?_⟩
    rw [← h]
    rw [show 2 + (rest.takeWhile (fun c => c == '\n')).length =
        ((rest.takeWhile (fun c => c == '\n')).length + 1) + 1 from by omega]
    rw [List.take_succ_cons, List.take_succ_cons]
    rw [show ((rest.takeWhile (fun c => c == '\n')).length + 1) + 1 =
        (rest.takeWhile (fun c => c == '\n')).length + 2 from by omega]
    rw [List.replicate_succ, List.replicate_succ]
    congr 1
    congr 1
    rw [← hpfx, hrepl, List.length_replicate]
  next => exact absurd h (by simp)

theorem paraDelimHead_extend {x : List Char} (y : List Char) {n : Nat}
    (h : paraDelimHead x = some n) :
    ∃ m, paraDelimHead (x ++ y) = some m := by
  unfold paraDelimHead at h
  split at h
  next rest =>
    show ∃ m, paraDelimHead ('\n' :: '\n' :: (rest ++ y)) = some m
    simp [paraDelimHead]
  next => exact absurd h (by simp)

theorem findParaDelim_none :
    ∀ l, findParaDelim l = none → ∀ i, paraDelimHead (l.drop i) = none := by
  intro l
  induction l with
  | nil =>
    intro _ i
    rw [List.drop_nil]
    rfl
  | cons c rest ih =>
    intro h i
    unfold findParaDelim at h
    cases hd : paraDelimHead (c :: rest) with
    | some n => rw [hd] at h; exact absurd h (by simp)
    | none =>
      rw [hd] at h
      cases hf : findParaDelim rest with
      | some ps =>
        obtain ⟨p, s⟩ := ps
        rw [hf] at h
        exact absurd h (by simp)
      | none =>
        cases i with
        | zero => simpa using hd
        | succ j => simpa using ih hf j

theorem findParaDelim_spec :
    ∀ (l p s : List Char), findParaDelim l = some (p, s) →
      (∀ i, i < p.length → paraDelimHead (l.drop i) = none) ∧
      p = l.take p.length ∧
      ∃ n, paraDelimHead (l.drop p.length) = some n ∧
        s = l.drop (p.length + n) := by
  intro l
  induction l with
  | nil => intro p s h; simp [findParaDelim] at h
  | cons c rest ih =>
    intro p s h
    unfold findParaDelim at h
    cases hd : paraDelimHead (c :: rest) with
    | some n =>
      rw [hd] at h
      simp only [Option.some.injEq, Prod.mk.injEq] at h
      obtain ⟨rfl, rfl⟩ := h
      refine ⟨fun i hi => absurd hi (by simp), rfl, n, ?_, by simp⟩
      simpa using hd
    | none =>
      rw [hd] at h
      cases hf : findParaDelim rest with
      | some ps =>
        obtain ⟨p', s'⟩ := ps
        rw [hf] at h
        simp only [Option.some.injEq, Prod.mk.injEq] at h
        obtain ⟨rfl, rfl⟩ := h
        obtain ⟨hnone, hptake, n, hn, hs⟩ := ih p' s' hf
        refine ⟨?_, ?_, n, ?_, ?_⟩
        · intro i hi
          cases i with
          | zero => simpa using hd
          | succ j =>
            have hj : j < p'.length := by
              simpa using hi
            simpa using hnone j hj
        · rw [List.length_cons, List.take_succ_cons, ← hptake]
        · simpa using hn
        · simp only [List.length_cons]
          rw [show p'.length + 1 + n = (p'.length + n) + 1 from by omega]
          simpa using hs
      | none => rw [hf] at h; exact absurd h (by simp)

theorem splitParasGo_ne_nil (fuel : Nat) (l : List Char) :
    splitParasGo fuel l ≠ [] := by
  cases fuel with
  | zero => simp [splitParasGo]
  | succ f =>
    unfold splitParasGo
    cases h : findParaDelim l with
    | none => simp
    | some ps =>
      obtain ⟨p, s⟩ := ps
      simp

theorem splitParasGo_spec :
    ∀ (fuel : Nat) (l : List Char), l.length ≤ fuel →
      ∃ delims, delims.length + 1 = (splitParasGo fuel l).length ∧
        (∀ d ∈ delims, isParaDelim d) ∧
        interleave (splitParasGo fuel l) delims = l ∧
        ∀ c ∈ splitParasGo fuel l, ∀ i, paraDelimHead (c.drop i) = none := by
  intro fuel
  induction fuel with
  | zero =>
    intro l hl
    have hnil : l = [] := List.eq_nil_of_length_eq_zero (by omega)
    subst hnil
    refine ⟨[], rfl, by simp, rfl, ?_⟩
    intro c hc i
    have hceq : c = ([] : List Char) := by
      simpa [splitParasGo] using hc
    rw [hceq, List.drop_nil]
    rfl
  | succ fuel ih =>
    intro l hl
    have hstep : splitParasGo (fuel + 1) l =
        match findParaDelim l with
        | none => [l]
        | some (p, s) => p :: splitParasGo fuel s := rfl
    cases hf : findParaDelim l with
    | none =>
      rw [hstep, hf]
      refine ⟨[], rfl, by simp, rfl, ?_⟩
      intro c hc i
      have hceq : c = l := by simpa using hc
      rw [hceq]
      exact findParaDelim_none l hf i
    | some ps =>
      obtain ⟨p, s⟩ := ps
      rw [hstep, hf]
      dsimp only
      obtain ⟨hnone, hptake, n, hn, hs⟩ := findParaDelim_spec l p s hf
      obtain ⟨d, hdelim, hdlen, hdtake⟩ := paraDelimHead_shape hn
      have hshrink : s.length < l.length := findParaDelim_shrinks l p s hf
      obtain ⟨delims', hlen', hmem', hint', hnod'⟩ := ih s (by omega)
      have hl_decomp : l = p ++ d ++ s := by
        conv_lhs => rw [← List.take_append_drop p.length l]
        rw [← hptake, List.append_assoc]
        congr 1
        conv_lhs => rw [← List.take_append_drop n (l.drop p.length)]
        rw [hdtake, List.drop_drop, ← hs]
      refine ⟨d :: delims', ?_, ?_, ?_, ?_⟩
      · simp only [List.length_cons]
        omega
      · intro d' hd'
        rcases List.mem_cons.mp hd' with rfl | hmem
        · exact hdelim
        · exact hmem' d' hmem
      · cases hgo : splitParasGo fuel s with
        | nil => exact absurd hgo (splitParasGo_ne_nil fuel s)
        | cons c2 cs =>
          rw [hgo] at hint'
          show p ++ d ++ interleave (c2 :: cs) delims' = l
          rw [hint', hl_decomp]
      · intro c hc i
        rcases List.mem_cons.mp hc with rfl | hmemc
        · by_cases hip : i < c.length
          · cases hsome : paraDelimHead (c.drop i) with
            | none => rfl
            | some m =>
              exfalso
              obtain ⟨m', hm'⟩ := paraDelimHead_extend (d ++ s) hsome
              have hdropeq : c.drop i ++ (d ++ s) = l.drop i := by
                conv_rhs => rw [hl_decomp]
                rw [List.append_assoc]
                rw [List.drop_append_of_le_length (le_of_lt hip)]
              rw [hdropeq, hnone i hip] at hm'
              exact absurd hm' (by simp)
          · push_neg at hip
            rw [List.drop_eq_nil_of_le hip]
            rfl
        · exact hnod' c hmemc i

/-- C9 (amended): the section splitter splits the document at every
occurrence of a newline followed by two or three `#` markers and whitespace
(consuming that delimiter; a heading at the very start of the document, with
no preceding newline, is not a split point and keeps its `#` markers): the
chunks interleaved with the consumed delimiters rebuild the document, no
chunk contains a remaining delimiter occurrence, empty chunks are dropped
from `sectionsOf`, order is preserved, each chunk's trimmed first line is its
section title, and the whole chunk — its title line included — is split into
paragraphs on runs of two or more newlines (one-or-more blank lines), with
the same rebuild/no-remaining-delimiter properties. -/
theorem section_split_spec (doc : List Char) :
    (∃ delims, delims.length + 1 = (splitSections doc).length ∧
      (∀ d ∈ delims, isSectionDelim d) ∧
      interleave (splitSections doc) delims = doc ∧
      ∀ c ∈ splitSections doc, ∀ i, sectionDelimHead (c.drop i) = none) ∧
    sectionsOf doc = (splitSections doc).filter (fun c => !c.isEmpty) ∧
    (∀ sec : List Char,
      sectionTitleOf sec = trimList (sec.takeWhile (fun c => c != '\n'))) ∧
    (∀ sec : List Char,
      ∃ pdelims, pdelims.length + 1 = (splitParas sec).length ∧
        (∀ d ∈ pdelims, isParaDelim d) ∧
        interleave (splitParas sec) pdelims = sec ∧
        ∀ p ∈ splitParas sec, ∀ i, paraDelimHead (p.drop i) = none) := by
  refine ⟨?_, rfl, fun sec => rfl, fun sec => ?_⟩
  · exact splitSectionsGo_spec doc.length doc (le_refl _)
  · exact splitParasGo_spec sec.length sec (le_refl _)

/-- C9 counterexample: the claim's "the remainder is split into paragraphs"
fails — the source splits the whole chunk, so the title line stays inside the
first scored paragraph (`"Title\nBody"`, not `"Body"`); and a heading at the
very start of a document is not a split point (the chunk keeps its
`## ` marker), since the delimiter regex requires a preceding newline. -/
theorem section_split_cx :
    sectionsOf "Pre\n## Title\nBody\n\nMore".data =
      ["Pre".data, "Title\nBody\n\nMore".data] ∧
    splitParas "Title\nBody\n\nMore".data = ["Title\nBody".data, "More".data] ∧
    specChunkParagraphs "Title\nBody\n\nMore".data = ["Body".data, "More".data] ∧
    splitParas "Title\nBody\n\nMore".data ≠
      specChunkParagraphs "Title\nBody\n\nMore".data ∧
    sectionsOf "## A\nB".data = ["## A\nB".data] := by
  exact ⟨by decide, by decide, by decide, by decide, by decide⟩

/-- C9 witness: the splitter specification instantiated on a concrete
document. -/
theorem section_split_spec_witness :
    ∃ delims, delims.length + 1 = (splitSections "Pre\n## T\nB".data).length ∧
      (∀ d ∈ delims, isSectionDelim d) ∧
      interleave (splitSections "Pre\n## T\nB".data) delims = "Pre\n## T\nB".data ∧
      ∀ c ∈ splitSections "Pre\n## T\nB".data, ∀ i,
        sectionDelimHead (c.drop i) = none :=
  (section_split_spec "Pre\n## T\nB".data).1

end MemoryBank
